import Mathlib

/-!
Verification of the core of the Travelling-Salesman City-Tour Optimizer.

The Python modules `tsp_solver.py`, `distance.py` and `tsp.py` are shallowly
embedded below.  Routes are lists of point indices (`List ℕ`); a distance
matrix is modelled as a total function `ℕ → ℕ → ℚ` together with its size
(the Python code indexes `dist_matrix[i][j]` on a square list-of-lists; a
total function over exact rationals models any matrix covering the indices
in play).  The geographic module `distance.py` works with real-valued
transcendental functions and is embedded over `ℝ`.  Possibly-raising Python
code is embedded with `Except String`, the error string naming the Python
exception class.  Loops whose termination is irrelevant to the claims
(the 2-opt `while improved` loop, the annealing temperature loop) are given
an explicit fuel / draw-stream argument; every theorem below holds for every
fuel value, so nothing depends on the amount of fuel supplied.
-/

namespace TspTour

/-- Embedding of `calculate_route_distance(route, dist_matrix)` from
`tsp_solver.py`: sums `dist_matrix[route[i]][route[i+1]]` over consecutive
pairs (`for i in range(len(route) - 1)`). -/
def calculate_route_distance (route : List ℕ) (d : ℕ → ℕ → ℚ) : ℚ :=
  match route with
  | [] => 0
  | [_] => 0
  | x :: y :: rest => d x y + calculate_route_distance (y :: rest) d

/-- Python's `min(iterable, key=f)` starting from an initial candidate:
scan left to right, replacing the current minimum only on a strictly
smaller key, so the first minimum in iteration order wins ties. -/
def pyMinFold (f : ℕ → ℚ) (m : ℕ) (l : List ℕ) : ℕ :=
  l.foldl (fun acc x => if f x < f acc then x else acc) m

lemma pyMinFold_mem (f : ℕ → ℚ) (l : List ℕ) : ∀ m, pyMinFold f m l ∈ m :: l := by
  induction l with
  | nil => intro m; simp [pyMinFold]
  | cons x xs ih =>
    intro m
    have h := ih (if f x < f m then x else m)
    simp only [pyMinFold, List.foldl_cons] at h ⊢
    rcases List.mem_cons.mp h with h1 | h1
    · rw [h1]
      split <;> simp
    · exact List.mem_cons.mpr (Or.inr (List.mem_cons.mpr (Or.inr h1)))

/-- The `while unvisited:` loop of `greedy_solver`: repeatedly pick the
unvisited index nearest to `current` (`min(unvisited, key=...)`), append it,
remove it from `unvisited`, and advance `current`.  The unvisited set is
modelled as the list of its elements in ascending order (CPython's iteration
order for small-integer sets), so ties go to the lowest index. -/
def greedyLoop (d : ℕ → ℕ → ℚ) (current : ℕ) (unvisited : List ℕ) : List ℕ :=
  match h : unvisited with
  | [] => []
  | u :: us =>
    let nearest := pyMinFold (fun i => d current i) u us
    have hmem : nearest ∈ unvisited := h ▸ pyMinFold_mem (fun i => d current i) us u
    have : (unvisited.erase nearest).length < unvisited.length := by
      rw [List.length_erase_of_mem hmem]
      have : 0 < unvisited.length := by rw [h]; simp
      omega
    nearest :: greedyLoop d nearest (unvisited.erase nearest)
  termination_by unvisited.length

lemma greedyLoop_nil (d : ℕ → ℕ → ℚ) (current : ℕ) :
    greedyLoop d current [] = [] := by
  rw [greedyLoop]

lemma greedyLoop_cons (d : ℕ → ℕ → ℚ) (current u : ℕ) (us : List ℕ) :
    greedyLoop d current (u :: us) =
      pyMinFold (fun i => d current i) u us ::
        greedyLoop d (pyMinFold (fun i => d current i) u us)
          ((u :: us).erase (pyMinFold (fun i => d current i) u us)) := by
  rw [greedyLoop]

lemma greedyLoop_perm (d : ℕ → ℕ → ℚ) (unvisited : List ℕ) (current : ℕ) :
    (greedyLoop d current unvisited).Perm unvisited := by
  suffices H : ∀ (n : ℕ) (u : List ℕ), u.length ≤ n →
      ∀ c, (greedyLoop d c u).Perm u from
    H unvisited.length unvisited le_rfl current
  intro n
  induction n with
  | zero =>
    intro u hu c
    have : u = [] := List.length_eq_zero.mp (Nat.le_zero.mp hu)
    subst this
    simp [greedyLoop_nil]
  | succ n ih =>
    intro u hu c
    cases u with
    | nil => simp [greedyLoop_nil]
    | cons x xs =>
      rw [greedyLoop_cons]
      have hmem : pyMinFold (fun i => d c i) x xs ∈ x :: xs :=
        pyMinFold_mem (fun i => d c i) xs x
      have hlen : ((x :: xs).erase (pyMinFold (fun i => d c i) x xs)).length ≤ n := by
        rw [List.length_erase_of_mem hmem]
        simp only [List.length_cons] at hu ⊢
        omega
      exact ((ih _ hlen _).cons _).trans (List.perm_cons_erase hmem).symm

/-- Embedding of `greedy_solver(dist_matrix, start_idx)` from
`tsp_solver.py`.  `n` is `len(dist_matrix)`.  `unvisited = set(range(n))`
followed by `unvisited.remove(current)` raises `KeyError` when `current`
is not in the set (in particular whenever `n = 0`); otherwise the route is
`[current]` extended by the greedy loop. -/
def greedy_solver (d : ℕ → ℕ → ℚ) (n start_idx : ℕ) : Except String (List ℕ) :=
  let unvisited := List.range n
  if start_idx ∈ unvisited then
    .ok (start_idx :: greedyLoop d start_idx (unvisited.erase start_idx))
  else
    .error "KeyError"

/-- C2: for any `n ≥ 1`-sized matrix and valid start index, `greedy_solver`
succeeds and returns a route of length `n` that begins at the start index
and is a permutation of `0..n-1` (each index visited exactly once). -/
theorem greedy_solver_complete (d : ℕ → ℕ → ℚ) (n start_idx : ℕ)
    (h : start_idx < n) :
    ∃ r, greedy_solver d n start_idx = .ok r ∧
      r.length = n ∧ r.head? = some start_idx ∧ r.Perm (List.range n) := by
  have hmem : start_idx ∈ List.range n := List.mem_range.mpr h
  refine ⟨start_idx :: greedyLoop d start_idx ((List.range n).erase start_idx),
    ?_, ?_, rfl, ?_⟩
  · simp [greedy_solver, hmem]
  · have hperm : (start_idx :: greedyLoop d start_idx
        ((List.range n).erase start_idx)).Perm (List.range n) :=
      ((greedyLoop_perm d _ start_idx).cons start_idx).trans
        (List.perm_cons_erase hmem).symm
    simpa [List.length_range] using hperm.length_eq
  · exact ((greedyLoop_perm d _ start_idx).cons start_idx).trans
      (List.perm_cons_erase hmem).symm

/-- Witness for C2 at a concrete input: a constant 3-by-3 matrix with
start index 1. -/
theorem greedy_solver_complete_witness :
    (1 : ℕ) < 3 ∧
    ∃ r, greedy_solver (fun _ _ => (0 : ℚ)) 3 1 = .ok r ∧
      r.length = 3 ∧ r.head? = some 1 ∧ r.Perm (List.range 3) :=
  ⟨by decide, greedy_solver_complete (fun _ _ => (0 : ℚ)) 3 1 (by decide)⟩

/-- C8 counterexample: on the empty (0-by-0) matrix `greedy_solver` raises
`KeyError` (`set().remove(start_idx)`), so it does not yield the empty
route claimed by the spec. -/
theorem greedy_solver_empty_counterexample :
    greedy_solver (fun _ _ => (0 : ℚ)) 0 0 = .error "KeyError" ∧
    greedy_solver (fun _ _ => (0 : ℚ)) 0 0 ≠ .ok [] := by
  constructor
  · rfl
  · intro h
    simp [greedy_solver] at h

/-- C8 amended: on a 0-by-0 matrix `greedy_solver` raises `KeyError` for
every start index and every matrix function, instead of returning an empty
route. -/
theorem greedy_solver_empty_raises (d : ℕ → ℕ → ℚ) (start_idx : ℕ) :
    greedy_solver d 0 start_idx = .error "KeyError" := by
  simp [greedy_solver]

/-- The slice assignment `new_route[i:j+1] = reversed(new_route[i:j+1])`
from `optimize_route`: reverse the contiguous segment at positions
`i..j` inclusive, keeping everything before `i` and after `j`. -/
def reverseSegment (r : List ℕ) (i j : ℕ) : List ℕ :=
  r.take i ++ ((r.drop i).take (j + 1 - i)).reverse ++ r.drop (j + 1)

/-- The index pairs scanned by `optimize_route`'s nested loops, in order:
`for i in range(1, len(best_route) - 2): for j in range(i + 1, len(best_route) - 1)`. -/
def pairs2opt (n : ℕ) : List (ℕ × ℕ) :=
  (List.range' 1 (n - 3)).flatMap fun i =>
    (List.range' (i + 1) (n - 2 - i)).map fun j => (i, j)

/-- One full scan of `optimize_route`'s nested loops against a fixed base
route and its distance `bd`: the first candidate whose distance is strictly
below `bd` is returned (the Python code then breaks out of both loops);
`none` means the pass completed with no improvement found. -/
def twoOptPass (d : ℕ → ℕ → ℚ) (best : List ℕ) (bd : ℚ) :
    List (ℕ × ℕ) → Option (List ℕ)
  | [] => none
  | (i, j) :: rest =>
    let new_route := reverseSegment best i j
    if calculate_route_distance new_route d < bd then some new_route
    else twoOptPass d best bd rest

/-- Embedding of `optimize_route(route, dist_matrix)` from `tsp_solver.py`:
the `while improved` loop recomputes `best_distance` from the current best
route, runs a scan, and either stops (no improving move) or continues from
the accepted candidate.  `fuel` bounds the number of `while` iterations;
every property proved below holds for every fuel value. -/
def optimize_route (route : List ℕ) (d : ℕ → ℕ → ℚ) : ℕ → List ℕ
  | 0 => route
  | fuel + 1 =>
    match twoOptPass d route (calculate_route_distance route d)
        (pairs2opt route.length) with
    | none => route
    | some nr => optimize_route nr d fuel

lemma twoOptPass_some {d : ℕ → ℕ → ℚ} {best : List ℕ} {bd : ℚ}
    {L : List (ℕ × ℕ)} {nr : List ℕ} (h : twoOptPass d best bd L = some nr) :
    ∃ i j, (i, j) ∈ L ∧ nr = reverseSegment best i j ∧
      calculate_route_distance nr d < bd := by
  induction L with
  | nil => simp [twoOptPass] at h
  | cons p rest ih =>
    obtain ⟨i, j⟩ := p
    by_cases hc : calculate_route_distance (reverseSegment best i j) d < bd
    · simp only [twoOptPass, if_pos hc, Option.some.injEq] at h
      exact ⟨i, j, by simp, h.symm, h ▸ hc⟩
    · simp only [twoOptPass, if_neg hc] at h
      obtain ⟨i', j', hmem, h1, h2⟩ := ih h
      exact ⟨i', j', by simp [hmem], h1, h2⟩

lemma mem_pairs2opt {n i j : ℕ} (h : (i, j) ∈ pairs2opt n) :
    1 ≤ i ∧ i < j ∧ j + 1 < n := by
  simp only [pairs2opt, List.mem_flatMap, List.mem_map, List.mem_range'] at h
  obtain ⟨a, ⟨k, hk, hak⟩, b, ⟨l, hl, hbl⟩, heq⟩ := h
  injection heq with e1 e2
  omega

lemma reverseSegment_perm (r : List ℕ) {i j : ℕ} (hij : i ≤ j + 1) :
    (reverseSegment r i j).Perm r := by
  have h3 : (r.drop i).drop (j + 1 - i) = r.drop (j + 1) := by
    rw [List.drop_drop]
    congr 1
    omega
  have key : (reverseSegment r i j).Perm
      (r.take i ++ ((r.drop i).take (j + 1 - i) ++ r.drop (j + 1))) := by
    unfold reverseSegment
    rw [List.append_assoc]
    exact List.Perm.append_left _ (List.Perm.append_right _ (List.reverse_perm _))
  have heq : r.take i ++ ((r.drop i).take (j + 1 - i) ++ r.drop (j + 1)) = r := by
    rw [← h3, List.take_append_drop, List.take_append_drop]
  rw [heq] at key
  exact key

lemma reverseSegment_head? (r : List ℕ) {i : ℕ} (j : ℕ) (hi : 1 ≤ i) :
    (reverseSegment r i j).head? = r.head? := by
  cases r with
  | nil => simp [reverseSegment]
  | cons x xs =>
    have htake : (List.take i (x :: xs)).head? = some x := by
      rw [List.head?_take, if_neg (by omega : ¬ i = 0)]
      rfl
    unfold reverseSegment
    rw [List.append_assoc, List.head?_append, htake]
    rfl

lemma reverseSegment_getLast? (r : List ℕ) (i : ℕ) {j : ℕ}
    (hj : j + 1 < r.length) :
    (reverseSegment r i j).getLast? = r.getLast? := by
  have hne : r.drop (j + 1) ≠ [] := by
    intro h
    have := List.drop_eq_nil_iff.mp h
    omega
  obtain ⟨y, hy⟩ : ∃ y, (r.drop (j + 1)).getLast? = some y := by
    cases hD : (r.drop (j + 1)).getLast? with
    | none => exact absurd (List.getLast?_eq_none_iff.mp hD) hne
    | some y => exact ⟨y, rfl⟩
  have hr : r.getLast? = some y := by
    conv_lhs => rw [← List.take_append_drop (j + 1) r]
    rw [List.getLast?_append, hy]
    rfl
  unfold reverseSegment
  rw [List.append_assoc, List.getLast?_append, List.getLast?_append, hy, hr]
  rfl

/-- C1: the total length of the route returned by the 2-opt improver is
less than or equal to the total length of the input route, for every input
route, every matrix, and every iteration budget. -/
theorem optimize_route_monotone (route : List ℕ) (d : ℕ → ℕ → ℚ) (fuel : ℕ) :
    calculate_route_distance (optimize_route route d fuel) d ≤
      calculate_route_distance route d := by
  induction fuel generalizing route with
  | zero => simp [optimize_route]
  | succ n ih =>
    cases hp : twoOptPass d route (calculate_route_distance route d)
        (pairs2opt route.length) with
    | none => simp [optimize_route, hp]
    | some nr =>
      simp only [optimize_route, hp]
      obtain ⟨i, j, _, _, hlt⟩ := twoOptPass_some hp
      exact (ih nr).trans (le_of_lt hlt)

lemma optimize_route_endpoints_aux (route : List ℕ) (d : ℕ → ℕ → ℚ)
    (fuel : ℕ) :
    (optimize_route route d fuel).head? = route.head? ∧
      (optimize_route route d fuel).getLast? = route.getLast? := by
  induction fuel generalizing route with
  | zero => simp [optimize_route]
  | succ n ih =>
    cases hp : twoOptPass d route (calculate_route_distance route d)
        (pairs2opt route.length) with
    | none => simp [optimize_route, hp]
    | some nr =>
      simp only [optimize_route, hp]
      obtain ⟨i, j, hmem, hnr, _⟩ := twoOptPass_some hp
      obtain ⟨h1, h2, h3⟩ := mem_pairs2opt hmem
      refine ⟨(ih nr).1.trans ?_, (ih nr).2.trans ?_⟩
      · rw [hnr]
        exact reverseSegment_head? route j h1
      · rw [hnr]
        exact reverseSegment_getLast? route i h3

lemma optimize_route_perm (route : List ℕ) (d : ℕ → ℕ → ℚ) (fuel : ℕ) :
    (optimize_route route d fuel).Perm route := by
  induction fuel generalizing route with
  | zero => simp [optimize_route]
  | succ n ih =>
    cases hp : twoOptPass d route (calculate_route_distance route d)
        (pairs2opt route.length) with
    | none => simp [optimize_route, hp]
    | some nr =>
      simp only [optimize_route, hp]
      obtain ⟨i, j, hmem, hnr, _⟩ := twoOptPass_some hp
      obtain ⟨h1, h2, h3⟩ := mem_pairs2opt hmem
      exact (ih nr).trans (hnr ▸ reverseSegment_perm route (by omega))

/-- C4: the 2-opt improver never touches position 0 or the last position:
the output route has the same index value as the input route at both, and
being in addition a permutation of the input, only the interior segment
may be reordered -- for every input route, matrix and iteration budget. -/
theorem optimize_route_endpoints (route : List ℕ) (d : ℕ → ℕ → ℚ) (fuel : ℕ) :
    (optimize_route route d fuel).head? = route.head? ∧
      (optimize_route route d fuel).getLast? = route.getLast? ∧
      (optimize_route route d fuel).Perm route :=
  ⟨(optimize_route_endpoints_aux route d fuel).1,
    (optimize_route_endpoints_aux route d fuel).2,
    optimize_route_perm route d fuel⟩

/-- The swap `candidate_route[i], candidate_route[j] = candidate_route[j],
candidate_route[i]` from `simulated_annealing`: the right-hand pair is read
from the original list, then written at positions `i` and `j`. -/
def swapPositions (r : List ℕ) (i j : ℕ) : List ℕ :=
  (r.set i (r.getD j 0)).set j (r.getD i 0)

/-- The fixed positions of `simulated_annealing`: `{0, len(route)-1}` when
the route returns to its start (`route[0] == route[-1]`), else empty. -/
def fixedOf (route : List ℕ) : List ℕ :=
  if route.head? = route.getLast? then [0, route.length - 1] else []

/-- The list comprehension `[i for i in range(len(route)) if i not in
fixed_points]` from `simulated_annealing`. -/
def availList (fixed : List ℕ) (n : ℕ) : List ℕ :=
  (List.range n).filter (fun i => decide (i ∉ fixed))

/-- The candidate positions `simulated_annealing` may swap for a given
input route: all positions except the fixed ones. -/
def availableOf (route : List ℕ) : List ℕ :=
  availList (fixedOf route) route.length

/-- The `while temperature > temp_end` loop of `simulated_annealing`.
Each iteration consumes one element `(a, b, acc)` of the random draw
stream: `a` and `b` select the two distinct swap positions out of the
available (non-fixed) ones, as `random.sample(available_indices, 2)` does,
and `acc` is the outcome of the Metropolis test
`random.random() < exp(-delta / temperature)` used when `delta ≥ 0`.
Quantifying over all streams covers every behaviour of the random source;
an exhausted stream ends the loop, which only shortens the run. -/
def saLoop (d : ℕ → ℕ → ℚ) (tempEnd rate : ℚ) (fixed : List ℕ) (nRoute : ℕ) :
    List (ℕ × ℕ × Bool) → List ℕ → List ℕ → ℚ → ℚ → ℚ → List ℕ
  | [], _, best, _, _, _ => best
  | (a, b, acc) :: rest, current, best, curDist, bestDist, temp =>
    if temp > tempEnd then
      if (availList fixed nRoute).length < 2 then best
      else
        let available := availList fixed nRoute
        let i := available.getD (a % available.length) 0
        let avail2 := available.erase i
        let j := avail2.getD (b % avail2.length) 0
        let candidate := swapPositions current i j
        let candDist := calculate_route_distance candidate d
        if candDist - curDist < 0 ∨ acc = true then
          if candDist < bestDist then
            saLoop d tempEnd rate fixed nRoute rest candidate candidate
              candDist candDist (temp * rate)
          else
            saLoop d tempEnd rate fixed nRoute rest candidate best
              candDist bestDist (temp * rate)
        else
          saLoop d tempEnd rate fixed nRoute rest current best
            curDist bestDist (temp * rate)
    else best

/-- Embedding of `simulated_annealing(route, dist_matrix, temp_start,
temp_end, cooling_rate)` from `tsp_solver.py`.  On the empty route the
fixed-point check `route[0] == route[-1]` raises `IndexError`; otherwise
`current` and `best` start as copies of the input and the temperature loop
runs on the supplied draw stream. -/
def simulated_annealing (route : List ℕ) (d : ℕ → ℕ → ℚ)
    (draws : List (ℕ × ℕ × Bool))
    (temp_start temp_end cooling_rate : ℚ) : Except String (List ℕ) :=
  match route with
  | [] => .error "IndexError"
  | _ :: _ =>
    .ok (saLoop d temp_end cooling_rate (fixedOf route) route.length draws
      route route (calculate_route_distance route d)
      (calculate_route_distance route d) temp_start)

lemma swapPositions_perm (l : List ℕ) {i j : ℕ} (hi : i < l.length)
    (hj : j < l.length) (hij : i ≠ j) : (swapPositions l i j).Perm l := by
  rw [List.perm_iff_count]
  intro x
  unfold swapPositions
  have hj1 : j < (l.set i (l.getD j 0)).length := by rwa [List.length_set]
  have hgj : (l.set i (l.getD j 0))[j] = l[j] := by
    have h2 := List.getElem?_set (l := l) (i := i) (j := j) (a := l.getD j 0)
    rw [if_neg hij, List.getElem?_eq_getElem hj1, List.getElem?_eq_getElem hj]
      at h2
    exact Option.some.inj h2
  rw [List.count_set _ _ _ _ hj1, List.count_set _ _ _ _ hi, hgj,
    List.getD_eq_getElem l 0 hj, List.getD_eq_getElem l 0 hi]
  cases hb1 : (l[i] == x) with
  | false =>
    cases hb2 : (l[j] == x) with
    | false => simp [hb1, hb2]
    | true => simp [hb1, hb2]
  | true =>
    have hx : l[i] = x := by simpa using hb1
    have hge : 1 ≤ l.count x :=
      List.count_pos_iff.mpr (hx ▸ List.getElem_mem hi)
    cases hb2 : (l[j] == x) with
    | false =>
      simp [hb1, hb2]
      omega
    | true =>
      simp [hb1, hb2]
      omega

lemma availList_nodup (fixed : List ℕ) (n : ℕ) : (availList fixed n).Nodup :=
  (List.nodup_range n).filter _

lemma availList_lt (fixed : List ℕ) (n : ℕ) {i : ℕ}
    (h : i ∈ availList fixed n) : i < n := by
  have := (List.mem_filter.mp h).1
  exact List.mem_range.mp this

lemma saLoop_best_le (d : ℕ → ℕ → ℚ) (tempEnd rate : ℚ) (fixed : List ℕ)
    (nRoute : ℕ) (draws : List (ℕ × ℕ × Bool)) :
    ∀ (current best : List ℕ) (curDist bestDist temp : ℚ),
      bestDist = calculate_route_distance best d →
      calculate_route_distance
        (saLoop d tempEnd rate fixed nRoute draws current best curDist
          bestDist temp) d ≤ bestDist := by
  induction draws with
  | nil =>
    intro current best curDist bestDist temp hb
    simp [saLoop, hb]
  | cons dr rest ih =>
    obtain ⟨a, b, acc⟩ := dr
    intro current best curDist bestDist temp hb
    simp only [saLoop]
    split_ifs with h1 h2 h3 h4
    · exact le_of_eq hb.symm
    · exact (ih _ _ _ _ _ rfl).trans (le_of_lt h4)
    · exact ih _ _ _ _ _ hb
    · exact ih _ _ _ _ _ hb
    · exact le_of_eq hb.symm

/-- C5: whenever `simulated_annealing` returns a route -- for every input
route, matrix, parameter setting and random draw sequence -- its total
length is at most the total length of the input route. -/
theorem simulated_annealing_monotone (route : List ℕ) (d : ℕ → ℕ → ℚ)
    (draws : List (ℕ × ℕ × Bool)) (ts te rate : ℚ) (r : List ℕ)
    (h : simulated_annealing route d draws ts te rate = .ok r) :
    calculate_route_distance r d ≤ calculate_route_distance route d := by
  cases route with
  | nil => simp [simulated_annealing] at h
  | cons x xs =>
    simp only [simulated_annealing, Except.ok.injEq] at h
    subst h
    exact saLoop_best_le d te rate (fixedOf (x :: xs)) (x :: xs).length draws
      _ _ _ _ ts rfl

/-- Witness for C5 at a concrete input: a 3-point open route whose draw
stream is exhausted immediately, so the input route is returned. -/
theorem simulated_annealing_monotone_witness :
    simulated_annealing [0, 1, 2] (fun _ _ => (1 : ℚ)) [] 1000 0 2 =
        .ok [0, 1, 2] ∧
      calculate_route_distance [0, 1, 2] (fun _ _ => (1 : ℚ)) ≤
        calculate_route_distance [0, 1, 2] (fun _ _ => (1 : ℚ)) :=
  ⟨by rfl, simulated_annealing_monotone [0, 1, 2] (fun _ _ => (1 : ℚ))
    [] 1000 0 2 [0, 1, 2] (by rfl)⟩

lemma saCand_perm (fixed : List ℕ) (route current : List ℕ) (a b : ℕ)
    (hlen : 2 ≤ (availList fixed route.length).length)
    (hcur : current.Perm route) :
    (swapPositions current
      ((availList fixed route.length).getD
        (a % (availList fixed route.length).length) 0)
      (((availList fixed route.length).erase
          ((availList fixed route.length).getD
            (a % (availList fixed route.length).length) 0)).getD
        (b % ((availList fixed route.length).erase
          ((availList fixed route.length).getD
            (a % (availList fixed route.length).length) 0)).length)
        0)).Perm current := by
  set available := availList fixed route.length with hav
  have hilen : a % available.length < available.length :=
    Nat.mod_lt _ (by omega)
  set i := available.getD (a % available.length) 0 with hidef
  have himem : i ∈ available := by
    rw [hidef, List.getD_eq_getElem available 0 hilen]
    exact List.getElem_mem hilen
  have hjlen : b % (available.erase i).length < (available.erase i).length := by
    rw [List.length_erase_of_mem himem]
    refine Nat.mod_lt _ ?_
    omega
  set j := (available.erase i).getD (b % (available.erase i).length) 0
    with hjdef
  have hjmem : j ∈ available.erase i := by
    rw [hjdef, List.getD_eq_getElem _ 0 hjlen]
    exact List.getElem_mem hjlen
  have hji := (List.Nodup.mem_erase_iff (availList_nodup _ _)).mp hjmem
  have hilt : i < route.length := availList_lt _ _ himem
  have hjlt : j < route.length := availList_lt _ _ hji.2
  have hclen : current.length = route.length := hcur.length_eq
  exact swapPositions_perm current (hclen ▸ hilt) (hclen ▸ hjlt)
    (Ne.symm hji.1)

lemma saLoop_perm (d : ℕ → ℕ → ℚ) (tempEnd rate : ℚ) (fixed : List ℕ)
    (route : List ℕ) (draws : List (ℕ × ℕ × Bool)) :
    ∀ (current best : List ℕ) (curDist bestDist temp : ℚ),
      current.Perm route → best.Perm route →
      (saLoop d tempEnd rate fixed route.length draws current best curDist
        bestDist temp).Perm route := by
  induction draws with
  | nil =>
    intro current best curDist bestDist temp _ hbest
    simpa [saLoop] using hbest
  | cons dr rest ih =>
    obtain ⟨a, b, acc⟩ := dr
    intro current best curDist bestDist temp hcur hbest
    simp only [saLoop]
    split_ifs with h1 h2 h3 h4
    · exact hbest
    · have hc := saCand_perm fixed route current a b (by omega) hcur
      exact ih _ _ _ _ _ (hc.trans hcur) (hc.trans hcur)
    · have hc := saCand_perm fixed route current a b (by omega) hcur
      exact ih _ _ _ _ _ (hc.trans hcur) hbest
    · exact ih _ _ _ _ _ hcur hbest
    · exact hbest

/-- C7 counterexample: on the empty route `simulated_annealing` evaluates
`route[0]` in the fixed-point check and raises `IndexError` instead of
returning the input unchanged. -/
theorem simulated_annealing_empty_counterexample :
    simulated_annealing [] (fun _ _ => (0 : ℚ)) [] 1000 0 2 =
      .error "IndexError" := rfl

/-- C7 amended: for every nonempty input route with fewer than 2 non-fixed
positions (a single-element route, a two-element closed route), and every
matrix, draw sequence and parameter setting, `simulated_annealing` is a
no-op returning the input route unchanged; the empty route instead raises
`IndexError`. -/
theorem simulated_annealing_noop (route : List ℕ) (d : ℕ → ℕ → ℚ)
    (draws : List (ℕ × ℕ × Bool)) (ts te rate : ℚ)
    (h0 : route ≠ []) (h2 : (availableOf route).length < 2) :
    simulated_annealing route d draws ts te rate = .ok route := by
  cases route with
  | nil => exact absurd rfl h0
  | cons x xs =>
    simp only [simulated_annealing]
    congr 1
    cases draws with
    | nil => rfl
    | cons dr rest =>
      obtain ⟨a, b, acc⟩ := dr
      have h2' : (availList (fixedOf (x :: xs)) (x :: xs).length).length < 2 :=
        h2
      simp only [saLoop]
      by_cases h1 : ts > te
      · rw [if_pos h1, if_pos h2']
      · rw [if_neg h1]

/-- Witness for the amended C7: a single-point route has no two swappable
positions, so annealing returns it unchanged. -/
theorem simulated_annealing_noop_witness :
    ([5] : List ℕ) ≠ [] ∧ (availableOf [5]).length < 2 ∧
      simulated_annealing [5] (fun _ _ => (0 : ℚ)) [(1, 2, false)] 1000 0 2 =
        .ok [5] :=
  ⟨by decide, by decide, simulated_annealing_noop [5] (fun _ _ => (0 : ℚ))
    [(1, 2, false)] 1000 0 2 (by decide) (by decide)⟩

/-- C3: both improvement stages preserve the multiset of indices of the
input route: the 2-opt improver's output is a permutation of its input for
every iteration budget, and whatever route simulated annealing returns is a
permutation of its input, for every random draw sequence. -/
theorem improvement_preserves_multiset (route : List ℕ) (d : ℕ → ℕ → ℚ)
    (fuel : ℕ) (draws : List (ℕ × ℕ × Bool)) (ts te rate : ℚ) :
    (optimize_route route d fuel).Perm route ∧
      ∀ r, simulated_annealing route d draws ts te rate = .ok r →
        r.Perm route := by
  refine ⟨optimize_route_perm route d fuel, ?_⟩
  intro r h
  cases route with
  | nil => simp [simulated_annealing] at h
  | cons x xs =>
    simp only [simulated_annealing, Except.ok.injEq] at h
    subst h
    exact saLoop_perm d te rate (fixedOf (x :: xs)) (x :: xs) draws _ _ _ _ ts
      (List.Perm.refl _) (List.Perm.refl _)

/-- Witness for C3 at concrete inputs for both improvement stages. -/
theorem improvement_preserves_multiset_witness :
    (optimize_route [0, 2, 1, 3] (fun _ _ => (1 : ℚ)) 3).Perm [0, 2, 1, 3] ∧
      ([0, 1] : List ℕ).Perm [0, 1] :=
  ⟨(improvement_preserves_multiset [0, 2, 1, 3] (fun _ _ => (1 : ℚ)) 3
      [] 0 0 0).1,
   (improvement_preserves_multiset [0, 1] (fun _ _ => (1 : ℚ)) 0
      [] 1000 0 2).2 [0, 1] (by rfl)⟩

/-- The `Place` namedtuple of the repository, as consumed by `distance.py`
(only `lat` and `lon` are read there); coordinates are real numbers. -/
structure Place where
  name : String
  lat : ℝ
  lon : ℝ

/-- Python's `math.radians(x)`: degrees to radians. -/
noncomputable def radiansDeg (x : ℝ) : ℝ := x * Real.pi / 180

/-- Python's `math.atan2(y, x)`: the quadrant-aware arctangent, total on
all real argument pairs. -/
noncomputable def atan2 (y x : ℝ) : ℝ :=
  if 0 < x then Real.arctan (y / x)
  else if x < 0 then
    (if 0 ≤ y then Real.arctan (y / x) + Real.pi
     else Real.arctan (y / x) - Real.pi)
  else
    (if 0 < y then Real.pi / 2 else if y < 0 then -(Real.pi / 2) else 0)

/-- The intermediate `a` of `haversine_distance` in `distance.py`:
`sin(dlat/2)**2 + cos(lat1_rad) * cos(lat2_rad) * sin(dlon/2)**2`. -/
noncomputable def haversineA (lat1 lon1 lat2 lon2 : ℝ) : ℝ :=
  Real.sin ((radiansDeg lat2 - radiansDeg lat1) / 2) ^ 2 +
    Real.cos (radiansDeg lat1) * Real.cos (radiansDeg lat2) *
      Real.sin ((radiansDeg lon2 - radiansDeg lon1) / 2) ^ 2

/-- Embedding of `haversine_distance(lat1, lon1, lat2, lon2)` from
`distance.py`: `c = 2 * atan2(sqrt(a), sqrt(1-a))`, distance `6371.0 * c`. -/
noncomputable def haversine_distance (lat1 lon1 lat2 lon2 : ℝ) : ℝ :=
  6371.0 * (2 * atan2 (Real.sqrt (haversineA lat1 lon1 lat2 lon2))
    (Real.sqrt (1 - haversineA lat1 lon1 lat2 lon2)))

lemma haversineA_core_bounds (u v s : ℝ) (hs0 : 0 ≤ s) (hs1 : s ≤ 1) :
    0 ≤ Real.sin ((v - u) / 2) ^ 2 + Real.cos u * Real.cos v * s ∧
      Real.sin ((v - u) / 2) ^ 2 + Real.cos u * Real.cos v * s ≤ 1 := by
  have hkey : Real.sin ((v - u) / 2) ^ 2 + Real.cos u * Real.cos v =
      (1 + Real.cos (u + v)) / 2 := by
    have h1 : Real.sin ((v - u) / 2) ^ 2 =
        1 / 2 - Real.cos (2 * ((v - u) / 2)) / 2 := Real.sin_sq_eq_half_sub _
    have h2 : 2 * ((v - u) / 2) = v - u := by ring
    rw [h1, h2, Real.cos_sub, Real.cos_add]
    ring
  have hsx0 : 0 ≤ Real.sin ((v - u) / 2) ^ 2 := sq_nonneg _
  have hsx1 : Real.sin ((v - u) / 2) ^ 2 ≤ 1 := Real.sin_sq_le_one _
  have hc0 : 0 ≤ (1 + Real.cos (u + v)) / 2 := by
    linarith [Real.neg_one_le_cos (u + v)]
  have hc1 : (1 + Real.cos (u + v)) / 2 ≤ 1 := by
    linarith [Real.cos_le_one (u + v)]
  constructor
  · nlinarith [mul_nonneg hsx0 (by linarith : (0 : ℝ) ≤ 1 - s),
      mul_nonneg hc0 hs0]
  · nlinarith [mul_nonneg (by linarith : (0 : ℝ) ≤ 1 - Real.sin ((v - u) / 2) ^ 2)
      (by linarith : (0 : ℝ) ≤ 1 - s),
      mul_nonneg (by linarith : (0 : ℝ) ≤ 1 - (1 + Real.cos (u + v)) / 2) hs0]

/-- C10: for every real argument pair -- latitudes beyond plus or minus 90
degrees included -- the Haversine intermediate `a` stays within `[0, 1]`,
so both square roots `sqrt(a)` and `sqrt(1-a)` receive non-negative
arguments, and `atan2` (total on all real pairs) yields a well-defined
real distance. -/
theorem haversine_domain_safe (lat1 lon1 lat2 lon2 : ℝ) :
    0 ≤ haversineA lat1 lon1 lat2 lon2 ∧
      haversineA lat1 lon1 lat2 lon2 ≤ 1 ∧
      0 ≤ 1 - haversineA lat1 lon1 lat2 lon2 := by
  have h := haversineA_core_bounds (radiansDeg lat1) (radiansDeg lat2)
    (Real.sin ((radiansDeg lon2 - radiansDeg lon1) / 2) ^ 2)
    (sq_nonneg _) (Real.sin_sq_le_one _)
  unfold haversineA
  exact ⟨h.1, h.2, by linarith [h.2]⟩

/-- Default used to read `places[i]` and matrix rows out of range; the
loops below only index in range. -/
def dfltPlace : Place := ⟨"", 0, 0⟩

/-- The assignment `dist_matrix[i][j] = v` on a list-of-lists matrix. -/
def setEntry (m : List (List ℝ)) (i j : ℕ) (v : ℝ) : List (List ℝ) :=
  m.set i ((m.getD i []).set j v)

/-- The index pairs visited by `calculate_distance_matrix`'s loops, in
order: `for i in range(n): for j in range(i+1, n)` -- the strict upper
triangle. -/
def upperPairs (n : ℕ) : List (ℕ × ℕ) :=
  (List.range n).flatMap fun i =>
    (List.range' (i + 1) (n - (i + 1))).map fun j => (i, j)

/-- The call `haversine_distance(places[i].lat, places[i].lon,
places[j].lat, places[j].lon)` from `calculate_distance_matrix`. -/
noncomputable def placePair (places : List Place) (i j : ℕ) : ℝ :=
  haversine_distance (places.getD i dfltPlace).lat
    (places.getD i dfltPlace).lon (places.getD j dfltPlace).lat
    (places.getD j dfltPlace).lon

/-- One iteration of `calculate_distance_matrix`'s inner loop body:
`dist_matrix[i][j] = distance; dist_matrix[j][i] = distance`. -/
noncomputable def applyPair (places : List Place) (m : List (List ℝ))
    (ij : ℕ × ℕ) : List (List ℝ) :=
  setEntry (setEntry m ij.1 ij.2 (placePair places ij.1 ij.2))
    ij.2 ij.1 (placePair places ij.1 ij.2)

/-- Embedding of `calculate_distance_matrix(places)` from `distance.py`:
start from an `n`-by-`n` zero matrix and fill both mirror entries of every
strict-upper-triangle pair with the haversine distance of the two places. -/
noncomputable def calculate_distance_matrix (places : List Place) :
    List (List ℝ) :=
  (upperPairs places.length).foldl (applyPair places)
    (List.replicate places.length (List.replicate places.length (0 : ℝ)))

/-- Reading `m[a][b]` (0 out of range, as only in-range reads occur). -/
def entry (m : List (List ℝ)) (a b : ℕ) : ℝ := (m.getD a []).getD b 0

/-- The matrix is an `n`-by-`n` table. -/
def MatDims (m : List (List ℝ)) (n : ℕ) : Prop :=
  m.length = n ∧ ∀ r ∈ m, r.length = n

lemma getD_set_of_ne {α : Type _} (l : List α) (i : ℕ) (x : α) {a : ℕ}
    (h : ¬ i = a) (dflt : α) : (l.set i x).getD a dflt = l.getD a dflt := by
  rw [List.getD_eq_getElem?_getD, List.getD_eq_getElem?_getD,
    List.getElem?_set, if_neg h]

lemma getD_set_self {α : Type _} (l : List α) (i : ℕ) (x : α)
    (h : i < l.length) (dflt : α) : (l.set i x).getD i dflt = x := by
  rw [List.getD_eq_getElem?_getD, List.getElem?_set, if_pos rfl, if_pos h]
  rfl

lemma mem_upperPairs {n i j : ℕ} :
    (i, j) ∈ upperPairs n ↔ i < j ∧ j < n := by
  simp only [upperPairs, List.mem_flatMap, List.mem_map, List.mem_range,
    List.mem_range']
  constructor
  · rintro ⟨a, ha, b, ⟨l, hl, hbl⟩, heq⟩
    injection heq with e1 e2
    omega
  · rintro ⟨hij, hjn⟩
    exact ⟨i, by omega, j, ⟨j - (i + 1), by omega, by omega⟩, rfl⟩

lemma upperPairs_nodup (n : ℕ) : (upperPairs n).Nodup := by
  rw [upperPairs, List.nodup_flatMap]
  constructor
  · intro i _
    refine List.Nodup.map ?_ (List.nodup_range' _ _)
    intro a b hab
    injection hab
  · refine (List.pairwise_lt_range n).imp ?_
    intro a b hab
    intro p hpa hpb
    simp only [List.mem_map] at hpa hpb
    obtain ⟨x, _, hx⟩ := hpa
    obtain ⟨y, _, hy⟩ := hpb
    rw [← hx] at hy
    injection hy with e1 e2
    omega

lemma mem_upperPairs_lt {n : ℕ} {p : ℕ × ℕ} (h : p ∈ upperPairs n) :
    p.1 < p.2 ∧ p.2 < n := by
  obtain ⟨a, b⟩ := p
  exact mem_upperPairs.mp h

lemma entry_setEntry_ne (m : List (List ℝ)) (i j : ℕ) (v : ℝ) {a b : ℕ}
    (h : ¬ (a = i ∧ b = j)) : entry (setEntry m i j v) a b = entry m a b := by
  unfold entry setEntry
  by_cases ha : a = i
  · subst ha
    have hb : ¬ j = b := fun hb => h ⟨rfl, hb.symm⟩
    by_cases hlen : a < m.length
    · rw [getD_set_self m a _ hlen, getD_set_of_ne _ j v hb]
    · rw [List.set_eq_of_length_le (by omega)]
  · rw [getD_set_of_ne m i _ (fun he => ha he.symm)]

lemma entry_setEntry_self (m : List (List ℝ)) (i j : ℕ) (v : ℝ)
    (hi : i < m.length) (hj : j < (m.getD i []).length) :
    entry (setEntry m i j v) i j = v := by
  unfold entry setEntry
  rw [getD_set_self m i _ hi, getD_set_self _ j v hj]

lemma matDims_setEntry {m : List (List ℝ)} {n : ℕ} (hm : MatDims m n)
    (i j : ℕ) (v : ℝ) (hi : i < n) : MatDims (setEntry m i j v) n := by
  obtain ⟨h1, h2⟩ := hm
  refine ⟨by rw [setEntry, List.length_set]; exact h1, ?_⟩
  intro r hr
  rcases List.mem_or_eq_of_mem_set hr with h | h
  · exact h2 r h
  · subst h
    rw [List.length_set]
    have hi' : i < m.length := by omega
    rw [List.getD_eq_getElem m [] hi']
    exact h2 _ (List.getElem_mem hi')

lemma matDims_row_len {m : List (List ℝ)} {n : ℕ} (h : MatDims m n)
    {i : ℕ} (hi : i < n) : (m.getD i []).length = n := by
  have hi' : i < m.length := h.1 ▸ hi
  rw [List.getD_eq_getElem m [] hi']
  exact h.2 _ (List.getElem_mem hi')

lemma matDims_applyPair (places : List Place) {m : List (List ℝ)} {n : ℕ}
    (hm : MatDims m n) {ij : ℕ × ℕ} (h1 : ij.1 < n) (h2 : ij.2 < n) :
    MatDims (applyPair places m ij) n :=
  matDims_setEntry (matDims_setEntry hm _ _ _ h1) _ _ _ h2

lemma matDims_fold (places : List Place) (L : List (ℕ × ℕ)) {n : ℕ}
    (hL : ∀ p ∈ L, p.1 < n ∧ p.2 < n) :
    ∀ m, MatDims m n → MatDims (L.foldl (applyPair places) m) n := by
  induction L with
  | nil => intro m hm; exact hm
  | cons p rest ih =>
    intro m hm
    rw [List.foldl_cons]
    have hp := hL p (by simp)
    exact ih (fun q hq => hL q (by simp [hq]))
      _ (matDims_applyPair places hm hp.1 hp.2)

lemma entry_fold_untouched (places : List Place) (L : List (ℕ × ℕ))
    {a b : ℕ}
    (h : ∀ p ∈ L, ¬ (p.1 = a ∧ p.2 = b) ∧ ¬ (p.1 = b ∧ p.2 = a)) :
    ∀ m, entry (L.foldl (applyPair places) m) a b = entry m a b := by
  induction L with
  | nil => intro m; rfl
  | cons p rest ih =>
    intro m
    rw [List.foldl_cons, ih (fun q hq => h q (by simp [hq]))]
    have hp := h p (by simp)
    unfold applyPair
    rw [entry_setEntry_ne _ _ _ _
        (fun he => hp.2 ⟨he.2.symm, he.1.symm⟩),
      entry_setEntry_ne _ _ _ _
        (fun he => hp.1 ⟨he.1.symm, he.2.symm⟩)]

lemma entry_fold_hit (places : List Place) (L : List (ℕ × ℕ)) {n i j : ℕ}
    (hrange : ∀ p ∈ L, p.1 < p.2 ∧ p.2 < n) (hnodup : L.Nodup)
    (hmem : (i, j) ∈ L) :
    ∀ m, MatDims m n →
      entry (L.foldl (applyPair places) m) i j = placePair places i j ∧
        entry (L.foldl (applyPair places) m) j i = placePair places i j := by
  induction L with
  | nil => cases hmem
  | cons p rest ih =>
    intro m hm
    have hij : i < j ∧ j < n := by
      obtain ⟨h1, h2⟩ := hrange (i, j) hmem
      exact ⟨h1, h2⟩
    rcases List.mem_cons.mp hmem with heq | hmem'
    · subst heq
      rw [List.foldl_cons]
      have hcond : ∀ q ∈ rest,
          ¬ (q.1 = i ∧ q.2 = j) ∧ ¬ (q.1 = j ∧ q.2 = i) := by
        intro q hq
        constructor
        · rintro ⟨e1, e2⟩
          apply (List.nodup_cons.mp hnodup).1
          have : q = (i, j) := by
            obtain ⟨q1, q2⟩ := q
            simp only at e1 e2
            rw [e1, e2]
          exact this ▸ hq
        · rintro ⟨e1, e2⟩
          have hq1 := (hrange q (by simp [hq])).1
          omega
      have hd1 : i < m.length := by rw [hm.1]; omega
      have hd2 : MatDims (setEntry m i j (placePair places i j)) n :=
        matDims_setEntry hm _ _ _ (by omega)
      have hrow1 : j < (m.getD i []).length := by
        rw [matDims_row_len hm (by omega : i < n)]; omega
      have hrow2 : i <
          ((setEntry m i j (placePair places i j)).getD j []).length := by
        rw [matDims_row_len hd2 hij.2]; omega
      have hji : ¬ (i = j ∧ j = i) := fun he => by omega
      constructor
      · rw [entry_fold_untouched places rest hcond]
        unfold applyPair
        rw [entry_setEntry_ne _ _ _ _ hji,
          entry_setEntry_self m i j _ hd1 hrow1]
      · rw [entry_fold_untouched places rest
          (fun q hq => ⟨(hcond q hq).2, (hcond q hq).1⟩)]
        unfold applyPair
        rw [entry_setEntry_self _ j i _ (by rw [hd2.1]; omega) hrow2]
    · rw [List.foldl_cons]
      have hp := hrange p (by simp)
      exact ih (fun q hq => hrange q (by simp [hq]))
        (List.nodup_cons.mp hnodup).2 hmem' _
        (matDims_applyPair places hm (by omega) hp.2)

lemma entry_replicate (n a b : ℕ) :
    entry (List.replicate n (List.replicate n (0 : ℝ))) a b = 0 := by
  unfold entry
  by_cases h : a < n
  · rw [List.getD_eq_getElem (List.replicate n (List.replicate n (0 : ℝ))) []
      (by rw [List.length_replicate]; omega), List.getElem_replicate]
    by_cases hb : b < n
    · rw [List.getD_eq_getElem _ 0 (by rw [List.length_replicate]; omega),
        List.getElem_replicate]
    · rw [List.getD_eq_getElem?_getD,
        List.getElem?_eq_none (by rw [List.length_replicate]; omega)]
      rfl
  · rw [List.getD_eq_getElem?_getD (List.replicate n (List.replicate n (0 : ℝ)))
      a [], List.getElem?_eq_none (by rw [List.length_replicate]; omega)]
    rfl

/-- C6: `calculate_distance_matrix` returns an N-by-N matrix; the loop
pair list visits each unordered pair exactly once (`(i,j)` appears iff
`i < j`, with no duplicates); the haversine value of each pair is mirrored
into both entries, so the matrix is symmetric with a zero diagonal. -/
theorem calculate_distance_matrix_spec (places : List Place) (i j : ℕ)
    (hi : i < places.length) (hj : j < places.length) :
    (calculate_distance_matrix places).length = places.length ∧
      (∀ row ∈ calculate_distance_matrix places,
        row.length = places.length) ∧
      ((i, j) ∈ upperPairs places.length ↔ i < j) ∧
      (upperPairs places.length).Nodup ∧
      entry (calculate_distance_matrix places) i i = 0 ∧
      entry (calculate_distance_matrix places) i j =
        entry (calculate_distance_matrix places) j i ∧
      (i < j → entry (calculate_distance_matrix places) i j =
        placePair places i j) := by
  have hinit : MatDims
      (List.replicate places.length (List.replicate places.length (0 : ℝ)))
      places.length :=
    ⟨List.length_replicate _ _, fun r hr => by
      rw [(List.mem_replicate.mp hr).2]; exact List.length_replicate _ _⟩
  have hrange : ∀ p ∈ upperPairs places.length, p.1 < p.2 ∧ p.2 < places.length :=
    fun p hp => mem_upperPairs_lt hp
  have hrange' : ∀ p ∈ upperPairs places.length,
      p.1 < places.length ∧ p.2 < places.length := fun p hp => by
    have := mem_upperPairs_lt hp
    omega
  have hdims : MatDims (calculate_distance_matrix places) places.length :=
    matDims_fold places _ hrange' _ hinit
  have hdiag : ∀ a, entry (calculate_distance_matrix places) a a = 0 := by
    intro a
    unfold calculate_distance_matrix
    rw [entry_fold_untouched places _ (fun p hp => by
      have := mem_upperPairs_lt hp
      constructor <;> rintro ⟨e1, e2⟩ <;> omega)]
    exact entry_replicate places.length a a
  have hhit : ∀ a b, a < b → b < places.length →
      entry (calculate_distance_matrix places) a b = placePair places a b ∧
        entry (calculate_distance_matrix places) b a =
          placePair places a b := by
    intro a b hab hbn
    unfold calculate_distance_matrix
    exact entry_fold_hit places _ hrange (upperPairs_nodup places.length)
      (mem_upperPairs.mpr ⟨hab, hbn⟩) _ hinit
  refine ⟨hdims.1, hdims.2, ?_, upperPairs_nodup places.length, hdiag i,
    ?_, ?_⟩
  · rw [mem_upperPairs]
    exact ⟨fun h => h.1, fun h => ⟨h, hj⟩⟩
  · rcases lt_trichotomy i j with h | h | h
    · obtain ⟨e1, e2⟩ := hhit i j h hj
      rw [e1, e2]
    · subst h
      rfl
    · obtain ⟨e1, e2⟩ := hhit j i h hi
      rw [e1, e2]
  · intro h
    exact (hhit i j h hj).1

/-- A concrete two-point set for the C6 witness. -/
noncomputable def wPlaces : List Place := [⟨"a", 1, 2⟩, ⟨"b", 3, 4⟩]

/-- Witness for C6 at the two-point set and indices 0, 1. -/
theorem calculate_distance_matrix_spec_witness :
    (0 : ℕ) < wPlaces.length ∧ (1 : ℕ) < wPlaces.length ∧
      ((calculate_distance_matrix wPlaces).length = wPlaces.length ∧
        (∀ row ∈ calculate_distance_matrix wPlaces,
          row.length = wPlaces.length) ∧
        ((0, 1) ∈ upperPairs wPlaces.length ↔ (0 : ℕ) < 1) ∧
        (upperPairs wPlaces.length).Nodup ∧
        entry (calculate_distance_matrix wPlaces) 0 0 = 0 ∧
        entry (calculate_distance_matrix wPlaces) 0 1 =
          entry (calculate_distance_matrix wPlaces) 1 0 ∧
        ((0 : ℕ) < 1 → entry (calculate_distance_matrix wPlaces) 0 1 =
          placePair wPlaces 0 1)) :=
  ⟨by decide, by decide,
    calculate_distance_matrix_spec wPlaces 0 1 (by decide) (by decide)⟩

/-- The `Place` namedtuple as produced by `read_csv` in `tsp.py`; the
coordinate floats are modelled as exact rationals. -/
structure CsvPlace where
  name : String
  lat : ℚ
  lon : ℚ
deriving DecidableEq

/-- Python's `str.isdigit()`: nonempty and all characters digits. -/
def pyIsdigit (s : String) : Bool := !s.isEmpty && s.all Char.isDigit

/-- The header heuristic of `read_csv`, applied to a line given as its
comma-split fields: `not first_line.replace(',', '').replace('.', '')
.isdigit()`.  Removing the commas from the raw line rejoins the fields. -/
def isHeaderRow (fields : List String) : Bool :=
  ! pyIsdigit ((String.join fields).replace "." "")

/-- The `for line in f` loop of `read_csv`, over lines given as their
comma-split fields (`line.strip().split(',')`).  `pf` models Python's
`float(...)`: `none` is a `ValueError`, on which the row is skipped with a
warning and parsing continues; rows with fewer than three fields are
skipped silently. -/
def parseRows (pf : String → Option ℚ) : List (List String) → List CsvPlace
  | [] => []
  | parts :: rest =>
    if parts.length ≥ 3 then
      match pf (parts.getD 1 ""), pf (parts.getD 2 "") with
      | some lat, some lon => ⟨parts.getD 0 "", lat, lon⟩ :: parseRows pf rest
      | _, _ => parseRows pf rest
    else parseRows pf rest

/-- Embedding of `read_csv(filename)` from `tsp.py`, the file given as its
lines, each as its comma-split fields.  `f.readline()` consumes the first
line for the header test; in the header branch `f.seek(0)` plus `next(f)`
skips it again, and in the non-header branch the file position is simply
left after it -- so both branches parse from the second line on (the two
identical `ite` arms mirror that).  An empty file (`next` on an exhausted
iterator) and an empty parse result both end in `sys.exit(1)`. -/
def read_csv (pf : String → Option ℚ) (lines : List (List String)) :
    Except String (List CsvPlace) :=
  match lines with
  | [] => .error "SystemExit"
  | first :: rest =>
    let places := if isHeaderRow first then parseRows pf rest
      else parseRows pf rest
    if places.isEmpty then .error "SystemExit" else .ok places

/-- A concrete stand-in for Python's `float()` on the tokens used below:
integer tokens parse, `"bad"` raises `ValueError` (modelled as `none`). -/
def pfQ : String → Option ℚ := fun s =>
  if s = "1" then some 1 else if s = "2" then some 2
  else if s = "3" then some 3 else if s = "4" then some 4 else none

/-- C9: `read_csv` always drops the first line of the file, even when it is
a well-formed data row and no header is present, because the non-header
branch never rewinds the file: on the header-less file `A,1,2 / B,3,4` the
row `A` is lost.  The recoverable parts of the claim do hold: with a header
present, a row with unparsable latitude is skipped and parsing continues
with the remaining rows. -/
theorem read_csv_first_line_always_skipped :
    read_csv pfQ [["A", "1", "2"], ["B", "3", "4"]] = .ok [⟨"B", 3, 4⟩] ∧
      read_csv pfQ [["A", "1", "2"], ["B", "3", "4"]] ≠
        .ok [⟨"A", 1, 2⟩, ⟨"B", 3, 4⟩] ∧
      read_csv pfQ [["Name", "Lat", "Lon"], ["A", "bad", "2"], ["B", "3", "4"]]
        = .ok [⟨"B", 3, 4⟩] := by
  refine ⟨?_, ?_, ?_⟩
  · simp only [read_csv, ite_self]
    rfl
  · intro h
    have e : read_csv pfQ [["A", "1", "2"], ["B", "3", "4"]] =
        .ok [⟨"B", 3, 4⟩] := by
      simp only [read_csv, ite_self]
      rfl
    rw [e, Except.ok.injEq] at h
    have hlen := congrArg List.length h
    simp at hlen
  · simp only [read_csv, ite_self]
    rfl

end TspTour
